import Mathlib

/-!
Verification of the cmocka mocking substrate against its specification.

The definitions below are a shallow embedding of `src/cmocka.c`:
the two symbol registries (`add_symbol_value` / `get_symbol_value`
unrolled at the two depths the framework instantiates, one key for the
return-value registry and two keys for the parameter-check registry),
the sticky-reaping and leftover-audit functions, the call-ordering
engine (`_function_called`), `_mock`, the tracking allocator
(`_test_malloc`, `_test_free`, `_test_realloc`) and the barrier-return
logic of the test runner.  The cyclic doubly linked `ListNode` lists of
the C code are rendered as Lean lists in the same order (head of the
Lean list = `head->next`, appends go to the tail, `list_find` is
first-match).
-/

set_option autoImplicit false

/-- Mirrors `SourceLocation` in cmocka.c: a file name and a line, captured at
every expectation/return/call site.  The `file` pointer may be NULL in C,
hence `Option String`. -/
structure SourceLocation where
  file : Option String
  line : Nat
deriving DecidableEq

/-- Mirrors `source_location_is_set`: the location counts as set when the file
is non-NULL and the line is nonzero. -/
def source_location_is_set (l : SourceLocation) : Bool :=
  l.file.isSome && l.line != 0

/-- Modelled from the spec: the sentinel `WILL_RETURN_ALWAYS` is defined in
`include/cmocka.h`, which is not among the sources here; per the spec an
ALWAYS entry carries remaining-use count `-1`. -/
def WILL_RETURN_ALWAYS : Int := -1

/-- Modelled from the spec: `WILL_RETURN_ONCE` is defined in
`include/cmocka.h`, which is not among the sources here.  The spec's sentinel
semantics require that a take leaves an ALWAYS entry (count `-1`) in place,
moves a MAYBE entry from `-2` to `-3` on its first consumption and leaves a
used MAYBE (`-3`) alone; the guard `refcount > WILL_RETURN_ONCE` in
`get_symbol_value` realizes exactly this with the value `-3`. -/
def WILL_RETURN_ONCE : Int := -3

/-- Modelled from the spec: `EXPECT_ALWAYS`, the ALWAYS sentinel for
expectation counts, is defined in `include/cmocka.h`, which is not among the
sources here; per the spec it is `-1`. -/
def EXPECT_ALWAYS : Int := -1

/-- Modelled from the spec: `EXPECT_MAYBE`, the MAYBE sentinel for expectation
counts, is defined in `include/cmocka.h`, which is not among the sources
here; per the spec it is `-2`. -/
def EXPECT_MAYBE : Int := -2

/-- A queued value together with its list node's remaining-use count: the
`value` and `refcount` fields of a `ListNode` holding a registry entry. -/
structure QueuedValue (α : Type) where
  value : α
  refcount : Int
deriving DecidableEq

/-- Mirrors `SymbolValue`: a return value for a mocked function together with
the site where it was declared.  The C payload is a `uintmax_t`; no
arithmetic is ever performed on it, so `Nat` carries it faithfully. -/
structure SymbolValue where
  location : SourceLocation
  value : Nat
deriving DecidableEq

/-- Mirrors `CheckParameterEvent`: a queued parameter check.  The
`check_value` function pointer is only invoked by `check_expected`, which no
claim below exercises, so only the declaration site, parameter name and the
opaque data word are carried. -/
structure CheckParameterEvent where
  parameter_name : String
  location : SourceLocation
  check_value_data : Nat
deriving DecidableEq

/-- Mirrors `FuncOrderingValue` together with its list node's refcount: one
entry of the call-ordering queue. -/
structure FuncOrderingValue where
  function : String
  location : SourceLocation
  refcount : Int
deriving DecidableEq

/-- One level of the symbol map (the cyclic list of `SymbolMapValue` nodes),
rendered as an association list in insertion order, instantiated with leaf
FIFOs: the shape of the return-value registry
(`number_of_symbol_names == 1`). -/
abbrev Map1 (α : Type) := List (String × List (QueuedValue α))

/-- The two-level symbol map: the shape of the parameter-check registry
(`number_of_symbol_names == 2`); outer buckets hold depth-one maps. -/
abbrev Map2 (α : Type) := List (String × Map1 α)

/-- Mirrors `list_find` with `symbol_names_match`: the first node whose key
equals `k`. -/
def lookupFirst {κ β : Type} [DecidableEq κ] (m : List (κ × β)) (k : κ) : Option β :=
  match m with
  | [] => none
  | (k₁, b) :: ms => if k₁ = k then some b else lookupFirst ms k

/-- Mirrors an in-place write through the node `list_find` returned: apply `f`
to the first entry whose key equals `k`. -/
def updateFirst {κ β : Type} [DecidableEq κ] (m : List (κ × β)) (k : κ) (f : β → β) :
    List (κ × β) :=
  match m with
  | [] => []
  | (k₁, b) :: ms => if k₁ = k then (k₁, f b) :: ms else (k₁, b) :: updateFirst ms k f

/-- Mirrors `list_remove_free` on the node `list_find` returned: drop the
first entry whose key equals `k`. -/
def removeFirst {κ β : Type} [DecidableEq κ] (m : List (κ × β)) (k : κ) : List (κ × β) :=
  match m with
  | [] => []
  | (k₁, b) :: ms => if k₁ = k then ms else (k₁, b) :: removeFirst ms k

/-- The keys of an association list are pairwise distinct.  `add_symbol_value`
creates a bucket only when `list_find` fails, so every state reachable through
the cmocka API satisfies this. -/
def nodup_keys {κ β : Type} (m : List (κ × β)) : Prop :=
  (m.map Prod.fst).Nodup

instance {κ β : Type} [DecidableEq κ] (m : List (κ × β)) : Decidable (nodup_keys m) := by
  unfold nodup_keys
  infer_instance

/-- `add_symbol_value` at one key (`number_of_symbol_names == 1`): find or
create the bucket for `k` (new buckets are appended at the tail of the map)
and append the value with its count at the tail of the leaf FIFO. -/
def add_symbol_value1 {α : Type} (m : Map1 α) (k : String) (v : α) (count : Int) : Map1 α :=
  match m with
  | [] => [(k, [⟨v, count⟩])]
  | (k₁, vs) :: ms =>
    if k₁ = k then (k₁, vs ++ [⟨v, count⟩]) :: ms
    else (k₁, vs) :: add_symbol_value1 ms k v count

/-- `add_symbol_value` at two keys (`number_of_symbol_names == 2`): find or
create the outer bucket for `k₁`, then recurse one level down. -/
def add_symbol_value2 {α : Type} (m : Map2 α) (k₁ k₂ : String) (v : α) (count : Int) :
    Map2 α :=
  match m with
  | [] => [(k₁, add_symbol_value1 [] k₂ v count)]
  | (j, m1) :: ms =>
    if j = k₁ then (j, add_symbol_value1 m1 k₂ v count) :: ms
    else (j, m1) :: add_symbol_value2 ms k₁ k₂ v count

/-- `get_symbol_value` at one key: locate the bucket, take the front node of
its leaf FIFO, return its value with the refcount it had at retrieval, remove
it when the count was `1`, decrement while the count is above
`WILL_RETURN_ONCE`, and prune the bucket if its FIFO became empty.  A lookup
failure, or a (never retained) empty FIFO, returns `none` and leaves the map
untouched. -/
def get_symbol_value1 {α : Type} (m : Map1 α) (k : String) :
    Option (α × Int) × Map1 α :=
  match m with
  | [] => (none, [])
  | (k₁, vs) :: ms =>
    if k₁ = k then
      match vs with
      | [] => (none, (k₁, vs) :: ms)
      | e :: es =>
        let vs' := if e.refcount - 1 = 0 then es
                   else if e.refcount > WILL_RETURN_ONCE then ⟨e.value, e.refcount - 1⟩ :: es
                   else e :: es
        (some (e.value, e.refcount), if vs'.isEmpty then ms else (k₁, vs') :: ms)
    else
      let r := get_symbol_value1 ms k
      (r.fst, (k₁, vs) :: r.snd)

/-- `get_symbol_value` at two keys: locate the outer bucket, recurse one level
down, and prune the outer bucket if its child map became empty. -/
def get_symbol_value2 {α : Type} (m : Map2 α) (k₁ k₂ : String) :
    Option (α × Int) × Map2 α :=
  match m with
  | [] => (none, [])
  | (j, m1) :: ms =>
    if j = k₁ then
      let r := get_symbol_value1 m1 k₂
      (r.fst, if r.snd.isEmpty then ms else (j, r.snd) :: ms)
    else
      let r := get_symbol_value2 ms k₁ k₂
      (r.fst, (j, m1) :: r.snd)

/-- The leaf FIFO a one-key chain addresses (empty when the chain is absent);
the list `get_symbol_value1` takes its front from. -/
def leaf_fifo1 {α : Type} (m : Map1 α) (k : String) : List (QueuedValue α) :=
  match lookupFirst m k with
  | some vs => vs
  | none => []

/-- The leaf FIFO a two-key chain addresses. -/
def leaf_fifo2 {α : Type} (m : Map2 α) (k₁ k₂ : String) : List (QueuedValue α) :=
  match lookupFirst m k₁ with
  | some m1 => leaf_fifo1 m1 k₂
  | none => []

/-- The leaf FIFO after one take, as `get_symbol_value` leaves it: the front
entry `e` is removed at count `1`, decremented while above
`WILL_RETURN_ONCE`, and kept unchanged otherwise. -/
def take_leaf_result {α : Type} (e : QueuedValue α) (es : List (QueuedValue α)) :
    List (QueuedValue α) :=
  if e.refcount - 1 = 0 then es
  else if e.refcount > WILL_RETURN_ONCE then ⟨e.value, e.refcount - 1⟩ :: es
  else e :: es

/-- `remove_always_return_values` at one key: for each bucket, drop the front
entry of its FIFO when that entry's refcount is below `-1` (a sticky already
consumed at least once, or a MAYBE), then prune buckets left empty. -/
def remove_always_return_values1 {α : Type} (m : Map1 α) : Map1 α :=
  match m with
  | [] => []
  | (k, vs) :: ms =>
    let vs' := match vs with
               | [] => vs
               | e :: es => if e.refcount < -1 then es else e :: es
    if vs'.isEmpty then remove_always_return_values1 ms
    else (k, vs') :: remove_always_return_values1 ms

/-- `remove_always_return_values` at two keys: reap each outer bucket's child
map one level down, then prune outer buckets left empty. -/
def remove_always_return_values2 {α : Type} (m : Map2 α) : Map2 α :=
  match m with
  | [] => []
  | (k, m1) :: ms =>
    let m1' := if m1.isEmpty then m1 else remove_always_return_values1 m1
    if m1'.isEmpty then remove_always_return_values2 ms
    else (k, m1') :: remove_always_return_values2 ms

/-- `remove_always_return_values_from_list` on the call-ordering queue: every
node with refcount below `-1` is removed. -/
def remove_always_return_values_from_list (q : List FuncOrderingValue) :
    List FuncOrderingValue :=
  match q with
  | [] => []
  | e :: es =>
    if e.refcount < -1 then remove_always_return_values_from_list es
    else e :: remove_always_return_values_from_list es

/-- `check_for_leftover_values` at one key: the number of symbols whose FIFO
still holds an entry (each such bucket is reported with the declaration site
of every remaining entry). -/
def check_for_leftover_values1 {α : Type} (m : Map1 α) : Nat :=
  match m with
  | [] => 0
  | (_, vs) :: ms => (if vs.isEmpty then 0 else 1) + check_for_leftover_values1 ms

/-- `check_for_leftover_values` at two keys: the number of outer symbols whose
child map is nonempty (the recursive call's count is discarded by the C
code). -/
def check_for_leftover_values2 {α : Type} (m : Map2 α) : Nat :=
  match m with
  | [] => 0
  | (_, m1) :: ms => (if m1.isEmpty then 0 else 1) + check_for_leftover_values2 ms

/-- `check_for_leftover_values_list`: every node still in the call-ordering
queue is reported and counted. -/
def check_for_leftover_values_list (q : List FuncOrderingValue) : Nat :=
  q.length

/-- The per-test mutable registries: the return-value registry
(`global_function_result_map_head`), the parameter-check registry
(`global_function_parameter_map_head`) and the call-ordering queue
(`global_call_ordering_head`). -/
structure TestingState where
  resultMap : Map1 SymbolValue
  parameterMap : Map2 CheckParameterEvent
  callOrdering : List FuncOrderingValue
deriving DecidableEq

/-- `has_leftover_values`: reap used-sticky entries from both registries and
the ordering queue, then report what remains; returns the leftover verdict
together with the state the audit leaves behind. -/
def has_leftover_values (st : TestingState) : Bool × TestingState :=
  let m1 := remove_always_return_values1 st.resultMap
  let b1 := decide (check_for_leftover_values1 m1 ≠ 0)
  let m2 := remove_always_return_values2 st.parameterMap
  let b2 := decide (check_for_leftover_values2 m2 ≠ 0)
  let q := remove_always_return_values_from_list st.callOrdering
  let b3 := decide (check_for_leftover_values_list q ≠ 0)
  (b1 || b2 || b3, ⟨m1, m2, q⟩)

/-- `_will_return`: enqueue a return value (with its declaration site) for a
mocked function; `count == 0` is rejected by an assert in the C code. -/
def will_return (m : Map1 SymbolValue) (function_name : String) (file : String)
    (line : Nat) (value : Nat) (count : Int) : Map1 SymbolValue :=
  add_symbol_value1 m function_name ⟨⟨some file, line⟩, value⟩ count

/-- `_expect_check`: enqueue a parameter check under the
(function, parameter) key chain. -/
def expect_check (m : Map2 CheckParameterEvent) (function parameter : String)
    (file : String) (line : Nat) (check_data : Nat) (count : Int) :
    Map2 CheckParameterEvent :=
  add_symbol_value2 m function parameter ⟨parameter, ⟨some file, line⟩, check_data⟩ count

/-- `_expect_function_call`: append an ordering expectation at the queue
tail. -/
def expect_function_call (q : List FuncOrderingValue) (function_name : String)
    (file : String) (line : Nat) (count : Int) : List FuncOrderingValue :=
  q ++ [⟨function_name, ⟨some file, line⟩, count⟩]

/-- Outcome of `_function_called`: the three distinct failure diagnostics of
the C code, or success carrying the updated queue. -/
inductive CalledResult where
  | ok (queue : List FuncOrderingValue)
  | failEmptyQueue
  | failNoMatch
  | failMismatch (expected : String)
deriving DecidableEq

/-- The scan loop of `_function_called`: walk from the queue head keeping the
already-passed prefix `pre`; stop at the first node that matches `name` or
has refcount above `-2`.  A match with refcount above `-2` is decremented and
removed when it reaches zero; a sticky match is left untouched; a non-sticky
mismatch is the mismatch failure; falling off the end (back to the cyclic
list's head) is the no-match failure. -/
def function_called_scan (pre rest : List FuncOrderingValue) (name : String) :
    CalledResult :=
  match rest with
  | [] => .failNoMatch
  | e :: es =>
    if e.function = name then
      if e.refcount > -2 then
        if e.refcount - 1 = 0 then .ok (pre ++ es)
        else .ok (pre ++ ⟨e.function, e.location, e.refcount - 1⟩ :: es)
      else .ok (pre ++ e :: es)
    else if e.refcount > -2 then .failMismatch e.function
    else function_called_scan (pre ++ [e]) es name

/-- `_function_called`: an empty queue is the immediate hard failure;
otherwise run the scan from the head. -/
def function_called (q : List FuncOrderingValue) (name : String) : CalledResult :=
  match q with
  | [] => .failEmptyQueue
  | _ :: _ => function_called_scan [] q name

/-- The per-test state `_mock` touches: the return-value registry and
`global_last_mock_value_location`. -/
structure MockState where
  resultMap : Map1 SymbolValue
  lastMockLoc : SourceLocation
deriving DecidableEq

/-- Outcome of `_mock`: the dequeued payload, or the barrier-routed failure
diagnostic naming the function, with the declaration site of the most
recently dequeued value attached when one is set. -/
inductive MockOutcome where
  | ok (value : Nat)
  | fail (function : String) (callSite : SourceLocation) (previous : Option SourceLocation)
deriving DecidableEq

/-- `_mock`: dequeue the front return value for `function`.  On success the
payload is returned and `global_last_mock_value_location` records the
dequeued value's declaration site; on underflow the test fails through the
barrier with a diagnostic naming the function, citing the most recently
dequeued value's site when `source_location_is_set` holds for it. -/
def cm_mock (st : MockState) (function : String) (file : String) (line : Nat) :
    MockOutcome × MockState :=
  match get_symbol_value1 st.resultMap function with
  | (some (sym, _), m') => (.ok sym.value, ⟨m', sym.location⟩)
  | (none, m') =>
    (.fail function ⟨some file, line⟩
      (if source_location_is_set st.lastMockLoc then some st.lastMockLoc else none),
     ⟨m', st.lastMockLoc⟩)

/-- The test statuses the runner can assign after the body ran. -/
inductive CMStatus where
  | passed
  | failed
  | skipped
deriving DecidableEq

/-- The barrier-return branch of `cmocka_run_one_test_or_fixture`: control
came back through `longjmp`, so `rc` starts at `-1`; when `global_stop_test`
is set the leftover audit still runs and a clean audit turns `rc` into `0`. -/
def runner_barrier_return (stopFlag : Bool) (st : TestingState) : Int × TestingState :=
  if stopFlag then
    let a := has_leftover_values st
    (if a.fst then -1 else 0, a.snd)
  else (-1, st)

/-- The status assignment of `cmocka_run_one_tests` for a test whose body
fired the barrier: `rc == 0` is PASSED, otherwise SKIPPED when
`global_skip_test` is set and FAILED when it is not. -/
def test_status_after_barrier (stopFlag skipFlag : Bool) (st : TestingState) :
    CMStatus × TestingState :=
  let r := runner_barrier_return stopFlag st
  (if r.fst = 0 then .passed else if skipFlag then .skipped else .failed, r.snd)

/-- Mirrors `MallocBlockInfoData` plus the memory around the user region: the
two 16-byte guard zones, the user bytes and the allocation site.  The user
size of the C record is `userBytes.length`. -/
structure MallocBlockInfo where
  leadGuard : List Nat
  userBytes : List Nat
  tailGuard : List Nat
  location : SourceLocation
deriving DecidableEq

/-- The live-block set (`global_allocated_blocks`) with abstract block
addresses: blocks are keyed by the order of allocation, `nextId` is the next
fresh address. -/
structure AllocState where
  blocks : List (Nat × MallocBlockInfo)
  nextId : Nat
deriving DecidableEq

/-- `_test_malloc`: allocate a block whose guard zones hold sixteen `0xEF`
bytes each and whose user region is pattern-filled with `0xBA`, record it at
the tail of the live-block list, and hand back its (fresh) address. -/
def test_malloc (st : AllocState) (size : Nat) (file : String) (line : Nat) :
    Nat × AllocState :=
  let b : MallocBlockInfo :=
    { leadGuard := List.replicate 16 0xEF
      userBytes := List.replicate size 0xBA
      tailGuard := List.replicate 16 0xEF
      location := ⟨some file, line⟩ }
  (st.nextId, ⟨st.blocks ++ [(st.nextId, b)], st.nextId + 1⟩)

/-- The guard-zone recheck `_test_free` performs: both zones are reread and
every byte must still equal the guard pattern `0xEF` (the C code compares the
`char` difference, i.e. the byte value modulo 256; on the first deviation it
fails once through the barrier). -/
def guard_blocks_ok (b : MallocBlockInfo) : Bool :=
  (b.leadGuard ++ b.tailGuard).all (fun byte => byte % 256 == 0xEF)

/-- Outcome of `_test_free`: success with the updated live set, the
GUARD_CORRUPTION failure carrying the free site and the allocation site, or
the undefined behaviour of freeing a pointer the allocator never handed out
(excluded by every claim). -/
inductive FreeResult where
  | ok (st : AllocState)
  | guardFail (freeSite allocSite : SourceLocation)
  | badPtr
deriving DecidableEq

/-- `_test_free`: NULL is returned immediately with nothing checked and
nothing changed; otherwise the block's guard zones are reread and a deviation
fails with both sites, else the block is unlinked from the live set (its
memory is then clobbered with `0xCD` and released, which the live set no
longer observes). -/
def test_free (st : AllocState) (ptr : Option Nat) (file : String) (line : Nat) :
    FreeResult :=
  match ptr with
  | none => .ok st
  | some p =>
    match lookupFirst st.blocks p with
    | none => .badPtr
    | some b =>
      if guard_blocks_ok b then .ok ⟨removeFirst st.blocks p, st.nextId⟩
      else .guardFail ⟨some file, line⟩ b.location

/-- The `memcpy` into a freshly allocated block's user region. -/
def set_user_bytes (st : AllocState) (p : Nat) (bytes : List Nat) : AllocState :=
  ⟨updateFirst st.blocks p (fun b => { b with userBytes := bytes }), st.nextId⟩

/-- Outcome of `_test_realloc`: the returned pointer (`none` is NULL) with the
updated state, or a propagated failure from the embedded free. -/
inductive ReallocResult where
  | ok (ptr : Option Nat) (st : AllocState)
  | guardFail (freeSite allocSite : SourceLocation)
  | badPtr
deriving DecidableEq

/-- Lift a `_test_free` outcome into a `_test_realloc` outcome returning
NULL, as the `size == 0` branch does. -/
def free_as_realloc (r : FreeResult) : ReallocResult :=
  match r with
  | .ok st => .ok none st
  | .guardFail a b => .guardFail a b
  | .badPtr => .badPtr

/-- `_test_realloc`: a NULL pointer goes to `_test_malloc`; size zero goes to
`_test_free` and returns NULL; otherwise a fresh block is allocated, the old
user bytes are copied up to the smaller of the two sizes, and the old block
is freed (rechecking its guard zones). -/
def test_realloc (st : AllocState) (ptr : Option Nat) (size : Nat) (file : String)
    (line : Nat) : ReallocResult :=
  match ptr with
  | none =>
    let r := test_malloc st size file line
    .ok (some r.fst) r.snd
  | some p =>
    if size = 0 then free_as_realloc (test_free st (some p) file line)
    else
      match lookupFirst st.blocks p with
      | none => .badPtr
      | some b =>
        let r := test_malloc st size file line
        let copy_len := if b.userBytes.length < size then b.userBytes.length else size
        let st2 := set_user_bytes r.snd r.fst
          (b.userBytes.take copy_len ++ List.replicate (size - copy_len) 0xBA)
        match test_free st2 (some p) file line with
        | .ok st3 => .ok (some r.fst) st3
        | .guardFail a c => .guardFail a c
        | .badPtr => .badPtr

/-- The block `_test_realloc` records for a non-NULL pointer and nonzero
size: fresh guard zones, the old user bytes copied up to the smaller of the
two sizes, the `0xBA` allocation fill beyond them, and the realloc call
site. -/
def reallocBlock (b : MallocBlockInfo) (size : Nat) (file : String) (line : Nat) :
    MallocBlockInfo :=
  { leadGuard := List.replicate 16 0xEF
    userBytes :=
      b.userBytes.take
          (if b.userBytes.length < size then b.userBytes.length else size) ++
        List.replicate
          (size - (if b.userBytes.length < size then b.userBytes.length else size)) 0xBA
    tailGuard := List.replicate 16 0xEF
    location := ⟨some file, line⟩ }

/-- Every recorded block address is below the allocator's fresh counter; an
invariant of every state `test_malloc` produces. -/
def ids_below (st : AllocState) : Prop :=
  ∀ q ∈ st.blocks.map Prod.fst, q < st.nextId

instance (st : AllocState) : Decidable (ids_below st) := by
  unfold ids_below
  infer_instance

/-! ## Association-list and leaf-FIFO lemmas -/

theorem lookupFirst_cons_hit {κ β : Type} [DecidableEq κ] (k : κ) (b : β)
    (ms : List (κ × β)) : lookupFirst ((k, b) :: ms) k = some b := by
  simp [lookupFirst]

theorem lookupFirst_cons_miss {κ β : Type} [DecidableEq κ] {k₁ k : κ} (h : k₁ ≠ k)
    (b : β) (ms : List (κ × β)) : lookupFirst ((k₁, b) :: ms) k = lookupFirst ms k := by
  simp [lookupFirst, h]

theorem lookupFirst_eq_none {κ β : Type} [DecidableEq κ] {m : List (κ × β)} {k : κ}
    (h : k ∉ m.map Prod.fst) : lookupFirst m k = none := by
  induction m with
  | nil => rfl
  | cons p ms ih =>
    obtain ⟨k₁, b⟩ := p
    simp only [List.map_cons, List.mem_cons] at h
    push_neg at h
    rw [lookupFirst_cons_miss (fun hh => h.1 hh.symm), ih h.2]

theorem get1_head_nil {α : Type} (k : String) (ms : Map1 α) :
    get_symbol_value1 ((k, []) :: ms) k = (none, (k, []) :: ms) := by
  simp [get_symbol_value1]

theorem get1_head_cons {α : Type} (k : String) (e : QueuedValue α)
    (es : List (QueuedValue α)) (ms : Map1 α) :
    get_symbol_value1 ((k, e :: es) :: ms) k =
      (some (e.value, e.refcount),
       if (take_leaf_result e es).isEmpty then ms
       else (k, take_leaf_result e es) :: ms) := by
  simp [get_symbol_value1, take_leaf_result]

theorem get1_head_miss {α : Type} {k₁ k : String} (h : k₁ ≠ k)
    (vs : List (QueuedValue α)) (ms : Map1 α) :
    get_symbol_value1 ((k₁, vs) :: ms) k =
      ((get_symbol_value1 ms k).fst, (k₁, vs) :: (get_symbol_value1 ms k).snd) := by
  simp [get_symbol_value1, h]

theorem leaf_fifo1_eq_getD {α : Type} (m : Map1 α) (k : String) :
    leaf_fifo1 m k = (lookupFirst m k).getD [] := by
  cases h : lookupFirst m k <;> simp [leaf_fifo1, h]

theorem leaf_fifo1_cons_lookup {α : Type} {m : Map1 α} {k : String}
    {e : QueuedValue α} {es : List (QueuedValue α)}
    (h : leaf_fifo1 m k = e :: es) : lookupFirst m k = some (e :: es) := by
  rw [leaf_fifo1_eq_getD] at h
  cases hl : lookupFirst m k with
  | none => rw [hl] at h; simp at h
  | some vs => rw [hl] at h; simp at h; rw [h]

theorem get1_fst_of_front {α : Type} {m : Map1 α} {k : String}
    {e : QueuedValue α} {es : List (QueuedValue α)}
    (h : leaf_fifo1 m k = e :: es) :
    (get_symbol_value1 m k).fst = some (e.value, e.refcount) := by
  induction m with
  | nil => simp [leaf_fifo1, lookupFirst] at h
  | cons p ms ih =>
    obtain ⟨k₁, vs⟩ := p
    by_cases hk : k₁ = k
    · subst hk
      rw [leaf_fifo1_eq_getD, lookupFirst_cons_hit, Option.getD_some] at h
      subst h
      rw [get1_head_cons]
    · rw [leaf_fifo1_eq_getD, lookupFirst_cons_miss hk, ← leaf_fifo1_eq_getD] at h
      rw [get1_head_miss hk]
      exact ih h

theorem get1_leaf_of_front {α : Type} {m : Map1 α} {k : String}
    {e : QueuedValue α} {es : List (QueuedValue α)}
    (hn : nodup_keys m) (h : leaf_fifo1 m k = e :: es) :
    leaf_fifo1 (get_symbol_value1 m k).snd k = take_leaf_result e es := by
  induction m with
  | nil => simp [leaf_fifo1, lookupFirst] at h
  | cons p ms ih =>
    obtain ⟨k₁, vs⟩ := p
    unfold nodup_keys at hn
    simp only [List.map_cons, List.nodup_cons] at hn
    by_cases hk : k₁ = k
    · subst hk
      rw [leaf_fifo1_eq_getD, lookupFirst_cons_hit, Option.getD_some] at h
      subst h
      rw [get1_head_cons]
      by_cases he : (take_leaf_result e es).isEmpty
      · rw [if_pos he]
        rw [List.isEmpty_iff] at he
        rw [he, leaf_fifo1_eq_getD, lookupFirst_eq_none hn.1]
        rfl
      · rw [if_neg he]
        rw [leaf_fifo1_eq_getD, lookupFirst_cons_hit, Option.getD_some]
    · rw [leaf_fifo1_eq_getD, lookupFirst_cons_miss hk, ← leaf_fifo1_eq_getD] at h
      rw [get1_head_miss hk, leaf_fifo1_eq_getD, lookupFirst_cons_miss hk,
        ← leaf_fifo1_eq_getD]
      exact ih hn.2 h

theorem get1_none_snd {α : Type} {m : Map1 α} {k : String}
    (h : (get_symbol_value1 m k).fst = none) : (get_symbol_value1 m k).snd = m := by
  induction m with
  | nil => rfl
  | cons p ms ih =>
    obtain ⟨k₁, vs⟩ := p
    by_cases hk : k₁ = k
    · subst hk
      cases vs with
      | nil => rw [get1_head_nil]
      | cons e es => rw [get1_head_cons] at h; simp at h
    · rw [get1_head_miss hk] at h ⊢
      rw [ih h]

theorem get1_other_leaf {α : Type} {m : Map1 α} {k' k : String} (hk : k' ≠ k) :
    leaf_fifo1 (get_symbol_value1 m k').snd k = leaf_fifo1 m k := by
  induction m with
  | nil => rfl
  | cons p ms ih =>
    obtain ⟨k₁, vs⟩ := p
    by_cases h1 : k₁ = k'
    · subst h1
      have hne : k₁ ≠ k := hk
      cases vs with
      | nil => rw [get1_head_nil]
      | cons e es =>
        rw [get1_head_cons]
        by_cases he : (take_leaf_result e es).isEmpty
        · rw [if_pos he, leaf_fifo1_eq_getD, leaf_fifo1_eq_getD,
            lookupFirst_cons_miss hne]
        · rw [if_neg he, leaf_fifo1_eq_getD, leaf_fifo1_eq_getD,
            lookupFirst_cons_miss hne, lookupFirst_cons_miss hne]
    · rw [get1_head_miss h1]
      by_cases h2 : k₁ = k
      · subst h2
        rw [leaf_fifo1_eq_getD, leaf_fifo1_eq_getD, lookupFirst_cons_hit,
          lookupFirst_cons_hit]
      · rw [leaf_fifo1_eq_getD, leaf_fifo1_eq_getD, lookupFirst_cons_miss h2,
          lookupFirst_cons_miss h2, ← leaf_fifo1_eq_getD, ← leaf_fifo1_eq_getD]
        exact ih

theorem add1_cons_hit {α : Type} (k : String) (vs : List (QueuedValue α))
    (ms : Map1 α) (v : α) (c : Int) :
    add_symbol_value1 ((k, vs) :: ms) k v c = (k, vs ++ [⟨v, c⟩]) :: ms := by
  simp [add_symbol_value1]

theorem add1_cons_miss {α : Type} {k₁ k : String} (h : k₁ ≠ k)
    (vs : List (QueuedValue α)) (ms : Map1 α) (v : α) (c : Int) :
    add_symbol_value1 ((k₁, vs) :: ms) k v c = (k₁, vs) :: add_symbol_value1 ms k v c := by
  simp [add_symbol_value1, h]

theorem add1_leaf {α : Type} (m : Map1 α) (k : String) (v : α) (c : Int) :
    leaf_fifo1 (add_symbol_value1 m k v c) k = leaf_fifo1 m k ++ [⟨v, c⟩] := by
  induction m with
  | nil => simp [add_symbol_value1, leaf_fifo1, lookupFirst]
  | cons p ms ih =>
    obtain ⟨k₁, vs⟩ := p
    by_cases hk : k₁ = k
    · subst hk
      rw [add1_cons_hit, leaf_fifo1_eq_getD, leaf_fifo1_eq_getD, lookupFirst_cons_hit,
        lookupFirst_cons_hit]
      rfl
    · rw [add1_cons_miss hk, leaf_fifo1_eq_getD, leaf_fifo1_eq_getD,
        lookupFirst_cons_miss hk, lookupFirst_cons_miss hk, ← leaf_fifo1_eq_getD,
        ← leaf_fifo1_eq_getD]
      exact ih

theorem add1_other_leaf {α : Type} {m : Map1 α} {k' k : String} (hk : k' ≠ k)
    (v : α) (c : Int) :
    leaf_fifo1 (add_symbol_value1 m k' v c) k = leaf_fifo1 m k := by
  induction m with
  | nil =>
    simp only [add_symbol_value1]
    rw [leaf_fifo1_eq_getD, leaf_fifo1_eq_getD, lookupFirst_cons_miss hk]
  | cons p ms ih =>
    obtain ⟨k₁, vs⟩ := p
    by_cases h1 : k₁ = k'
    · subst h1
      rw [add1_cons_hit, leaf_fifo1_eq_getD, leaf_fifo1_eq_getD,
        lookupFirst_cons_miss hk, lookupFirst_cons_miss hk]
    · rw [add1_cons_miss h1]
      by_cases h2 : k₁ = k
      · subst h2
        rw [leaf_fifo1_eq_getD, leaf_fifo1_eq_getD, lookupFirst_cons_hit,
          lookupFirst_cons_hit]
      · rw [leaf_fifo1_eq_getD, leaf_fifo1_eq_getD, lookupFirst_cons_miss h2,
          lookupFirst_cons_miss h2, ← leaf_fifo1_eq_getD, ← leaf_fifo1_eq_getD]
        exact ih

theorem get2_head_hit {α : Type} (k₁ k₂ : String) (m1 : Map1 α) (ms : Map2 α) :
    get_symbol_value2 ((k₁, m1) :: ms) k₁ k₂ =
      ((get_symbol_value1 m1 k₂).fst,
       if (get_symbol_value1 m1 k₂).snd.isEmpty then ms
       else (k₁, (get_symbol_value1 m1 k₂).snd) :: ms) := by
  simp [get_symbol_value2]

theorem get2_head_miss {α : Type} {j k₁ : String} (h : j ≠ k₁) (k₂ : String)
    (m1 : Map1 α) (ms : Map2 α) :
    get_symbol_value2 ((j, m1) :: ms) k₁ k₂ =
      ((get_symbol_value2 ms k₁ k₂).fst, (j, m1) :: (get_symbol_value2 ms k₁ k₂).snd) := by
  simp [get_symbol_value2, h]

theorem add2_cons_hit {α : Type} (k₁ k₂ : String) (m1 : Map1 α) (ms : Map2 α)
    (v : α) (c : Int) :
    add_symbol_value2 ((k₁, m1) :: ms) k₁ k₂ v c =
      (k₁, add_symbol_value1 m1 k₂ v c) :: ms := by
  simp [add_symbol_value2]

theorem add2_cons_miss {α : Type} {j k₁ : String} (h : j ≠ k₁) (k₂ : String)
    (m1 : Map1 α) (ms : Map2 α) (v : α) (c : Int) :
    add_symbol_value2 ((j, m1) :: ms) k₁ k₂ v c =
      (j, m1) :: add_symbol_value2 ms k₁ k₂ v c := by
  simp [add_symbol_value2, h]

theorem leaf_fifo2_cons_hit {α : Type} (k₁ k₂ : String) (m1 : Map1 α) (ms : Map2 α) :
    leaf_fifo2 ((k₁, m1) :: ms) k₁ k₂ = leaf_fifo1 m1 k₂ := by
  simp [leaf_fifo2, lookupFirst]

theorem leaf_fifo2_cons_miss {α : Type} {j k₁ : String} (h : j ≠ k₁) (k₂ : String)
    (m1 : Map1 α) (ms : Map2 α) :
    leaf_fifo2 ((j, m1) :: ms) k₁ k₂ = leaf_fifo2 ms k₁ k₂ := by
  simp only [leaf_fifo2, lookupFirst_cons_miss h]

theorem leaf_fifo2_nil {α : Type} (k₁ k₂ : String) :
    leaf_fifo2 ([] : Map2 α) k₁ k₂ = [] := rfl

theorem leaf_fifo2_not_mem {α : Type} {m : Map2 α} {k₁ : String} (k₂ : String)
    (h : k₁ ∉ m.map Prod.fst) : leaf_fifo2 m k₁ k₂ = [] := by
  simp only [leaf_fifo2, lookupFirst_eq_none h]

theorem get2_fst_of_front {α : Type} {m : Map2 α} {k₁ k₂ : String}
    {e : QueuedValue α} {es : List (QueuedValue α)}
    (h : leaf_fifo2 m k₁ k₂ = e :: es) :
    (get_symbol_value2 m k₁ k₂).fst = some (e.value, e.refcount) := by
  induction m with
  | nil => simp [leaf_fifo2, lookupFirst] at h
  | cons p ms ih =>
    obtain ⟨j, m1⟩ := p
    by_cases hk : j = k₁
    · subst hk
      rw [leaf_fifo2_cons_hit] at h
      rw [get2_head_hit]
      exact get1_fst_of_front h
    · rw [leaf_fifo2_cons_miss hk] at h
      rw [get2_head_miss hk]
      exact ih h

theorem get2_leaf_of_front {α : Type} {m : Map2 α} {k₁ k₂ : String}
    {e : QueuedValue α} {es : List (QueuedValue α)}
    (hn : nodup_keys m) (hni : nodup_keys ((lookupFirst m k₁).getD []))
    (h : leaf_fifo2 m k₁ k₂ = e :: es) :
    leaf_fifo2 (get_symbol_value2 m k₁ k₂).snd k₁ k₂ = take_leaf_result e es := by
  induction m with
  | nil => simp [leaf_fifo2, lookupFirst] at h
  | cons p ms ih =>
    obtain ⟨j, m1⟩ := p
    unfold nodup_keys at hn
    simp only [List.map_cons, List.nodup_cons] at hn
    by_cases hk : j = k₁
    · subst hk
      rw [lookupFirst_cons_hit, Option.getD_some] at hni
      rw [leaf_fifo2_cons_hit] at h
      rw [get2_head_hit]
      have hleaf := get1_leaf_of_front hni h
      by_cases he : (get_symbol_value1 m1 k₂).snd.isEmpty
      · rw [if_pos he]
        rw [List.isEmpty_iff] at he
        rw [he] at hleaf
        rw [leaf_fifo2_not_mem k₂ hn.1, ← hleaf]
        rfl
      · rw [if_neg he, leaf_fifo2_cons_hit]
        exact hleaf
    · rw [leaf_fifo2_cons_miss hk] at h
      rw [lookupFirst_cons_miss hk] at hni
      rw [get2_head_miss hk, leaf_fifo2_cons_miss hk]
      exact ih hn.2 hni h

theorem get2_other_leaf {α : Type} {m : Map2 α} {j₁ j₂ k₁ k₂ : String}
    (hn : nodup_keys m) (hne : j₁ ≠ k₁ ∨ j₂ ≠ k₂) :
    leaf_fifo2 (get_symbol_value2 m j₁ j₂).snd k₁ k₂ = leaf_fifo2 m k₁ k₂ := by
  induction m with
  | nil => rfl
  | cons p ms ih =>
    obtain ⟨j, m1⟩ := p
    unfold nodup_keys at hn
    simp only [List.map_cons, List.nodup_cons] at hn
    by_cases h1 : j = j₁
    · subst h1
      rw [get2_head_hit]
      by_cases h2 : j = k₁
      · subst h2
        have hj2 : j₂ ≠ k₂ := by
          rcases hne with h | h
          · exact absurd rfl h
          · exact h
        by_cases he : (get_symbol_value1 m1 j₂).snd.isEmpty
        · rw [if_pos he, leaf_fifo2_not_mem k₂ hn.1, leaf_fifo2_cons_hit]
          have := get1_other_leaf (m := m1) hj2
          rw [List.isEmpty_iff.mp he] at this
          rw [← this]
          rfl
        · rw [if_neg he, leaf_fifo2_cons_hit, leaf_fifo2_cons_hit]
          exact get1_other_leaf hj2
      · by_cases he : (get_symbol_value1 m1 j₂).snd.isEmpty
        · rw [if_pos he, leaf_fifo2_cons_miss h2]
        · rw [if_neg he, leaf_fifo2_cons_miss h2, leaf_fifo2_cons_miss h2]
    · rw [get2_head_miss h1]
      by_cases h2 : j = k₁
      · subst h2
        rw [leaf_fifo2_cons_hit, leaf_fifo2_cons_hit]
      · rw [leaf_fifo2_cons_miss h2, leaf_fifo2_cons_miss h2]
        exact ih hn.2

theorem add2_leaf {α : Type} (m : Map2 α) (k₁ k₂ : String) (v : α) (c : Int) :
    leaf_fifo2 (add_symbol_value2 m k₁ k₂ v c) k₁ k₂ = leaf_fifo2 m k₁ k₂ ++ [⟨v, c⟩] := by
  induction m with
  | nil =>
    show leaf_fifo2 [(k₁, add_symbol_value1 [] k₂ v c)] k₁ k₂ = [] ++ [⟨v, c⟩]
    rw [leaf_fifo2_cons_hit, add1_leaf]
    rfl
  | cons p ms ih =>
    obtain ⟨j, m1⟩ := p
    by_cases hk : j = k₁
    · subst hk
      rw [add2_cons_hit, leaf_fifo2_cons_hit, leaf_fifo2_cons_hit, add1_leaf]
    · rw [add2_cons_miss hk, leaf_fifo2_cons_miss hk, leaf_fifo2_cons_miss hk]
      exact ih

theorem add2_other_leaf {α : Type} {m : Map2 α} {j₁ j₂ k₁ k₂ : String}
    (hne : j₁ ≠ k₁ ∨ j₂ ≠ k₂) (v : α) (c : Int) :
    leaf_fifo2 (add_symbol_value2 m j₁ j₂ v c) k₁ k₂ = leaf_fifo2 m k₁ k₂ := by
  induction m with
  | nil =>
    show leaf_fifo2 [(j₁, add_symbol_value1 [] j₂ v c)] k₁ k₂ = leaf_fifo2 [] k₁ k₂
    by_cases h1 : j₁ = k₁
    · subst h1
      have hj2 : j₂ ≠ k₂ := by
        rcases hne with h | h
        · exact absurd rfl h
        · exact h
      rw [leaf_fifo2_cons_hit, add1_other_leaf hj2]
      rfl
    · rw [leaf_fifo2_cons_miss h1]
  | cons p ms ih =>
    obtain ⟨j, m1⟩ := p
    by_cases h1 : j = j₁
    · subst h1
      rw [add2_cons_hit]
      by_cases h2 : j = k₁
      · subst h2
        have hj2 : j₂ ≠ k₂ := by
          rcases hne with h | h
          · exact absurd rfl h
          · exact h
        rw [leaf_fifo2_cons_hit, leaf_fifo2_cons_hit, add1_other_leaf hj2]
      · rw [leaf_fifo2_cons_miss h2, leaf_fifo2_cons_miss h2]
    · rw [add2_cons_miss h1]
      by_cases h2 : j = k₁
      · subst h2
        rw [leaf_fifo2_cons_hit, leaf_fifo2_cons_hit]
      · rw [leaf_fifo2_cons_miss h2, leaf_fifo2_cons_miss h2]
        exact ih

theorem take_leaf_result_cases {α : Type} (e : QueuedValue α) (es : List (QueuedValue α))
    (h : e.refcount ≠ 0) :
    take_leaf_result e es =
      (if e.refcount = 1 then es
       else if 1 < e.refcount then ⟨e.value, e.refcount - 1⟩ :: es
       else if e.refcount = -1 then ⟨e.value, -2⟩ :: es
       else if e.refcount = -2 then ⟨e.value, -3⟩ :: es
       else e :: es) := by
  unfold take_leaf_result
  rw [show WILL_RETURN_ONCE = -3 from rfl]
  split_ifs <;>
    first
      | rfl
      | omega
      | (have hx : e.refcount - 1 = -2 := by omega
         rw [hx])
      | (have hx : e.refcount - 1 = -3 := by omega
         rw [hx])

/-- C1: for both key chains the framework instantiates (one key in the
return-value registry, two keys in the parameter-check registry), a take
returns exactly the front element of the leaf FIFO the chain addresses, an
add appends at that FIFO's tail, and operations on any other key chain leave
the FIFO untouched — hence across every interleaving of adds and takes the
values queued under a given chain come back in insertion order. -/
theorem claim_C1_fifo_insertion_order {α : Type} :
    (∀ (m : Map1 α) (k : String) (e : QueuedValue α) (es : List (QueuedValue α)),
        leaf_fifo1 m k = e :: es →
        (get_symbol_value1 m k).fst = some (e.value, e.refcount)) ∧
    (∀ (m : Map1 α) (k : String) (v : α) (c : Int),
        leaf_fifo1 (add_symbol_value1 m k v c) k = leaf_fifo1 m k ++ [⟨v, c⟩]) ∧
    (∀ (m : Map1 α) (k' k : String) (v : α) (c : Int), k' ≠ k →
        leaf_fifo1 (add_symbol_value1 m k' v c) k = leaf_fifo1 m k) ∧
    (∀ (m : Map1 α) (k' k : String), k' ≠ k →
        leaf_fifo1 (get_symbol_value1 m k').snd k = leaf_fifo1 m k) ∧
    (∀ (m : Map2 α) (k₁ k₂ : String) (e : QueuedValue α) (es : List (QueuedValue α)),
        leaf_fifo2 m k₁ k₂ = e :: es →
        (get_symbol_value2 m k₁ k₂).fst = some (e.value, e.refcount)) ∧
    (∀ (m : Map2 α) (k₁ k₂ : String) (v : α) (c : Int),
        leaf_fifo2 (add_symbol_value2 m k₁ k₂ v c) k₁ k₂ =
          leaf_fifo2 m k₁ k₂ ++ [⟨v, c⟩]) ∧
    (∀ (m : Map2 α) (j₁ j₂ k₁ k₂ : String) (v : α) (c : Int), j₁ ≠ k₁ ∨ j₂ ≠ k₂ →
        leaf_fifo2 (add_symbol_value2 m j₁ j₂ v c) k₁ k₂ = leaf_fifo2 m k₁ k₂) ∧
    (∀ (m : Map2 α) (j₁ j₂ k₁ k₂ : String), nodup_keys m → (j₁ ≠ k₁ ∨ j₂ ≠ k₂) →
        leaf_fifo2 (get_symbol_value2 m j₁ j₂).snd k₁ k₂ = leaf_fifo2 m k₁ k₂) := by
  refine ⟨?_, ?_, ?_, ?_, ?_, ?_, ?_, ?_⟩
  · intro m k e es h
    exact get1_fst_of_front h
  · intro m k v c
    exact add1_leaf m k v c
  · intro m k' k v c h
    exact add1_other_leaf h v c
  · intro m k' k h
    exact get1_other_leaf h
  · intro m k₁ k₂ e es h
    exact get2_fst_of_front h
  · intro m k₁ k₂ v c
    exact add2_leaf m k₁ k₂ v c
  · intro m j₁ j₂ k₁ k₂ v c h
    exact add2_other_leaf h v c
  · intro m j₁ j₂ k₁ k₂ hn h
    exact get2_other_leaf hn h

theorem claim_C1_fifo_insertion_order_witness :
    (get_symbol_value1 [("f", [⟨(7 : Nat), 2⟩, ⟨9, 1⟩])] "f").fst = some (7, 2) ∧
    leaf_fifo1 (add_symbol_value1 [("f", [⟨(7 : Nat), 2⟩])] "f" 9 1) "f" =
      [⟨7, 2⟩, ⟨9, 1⟩] ∧
    leaf_fifo1 (get_symbol_value1 [("f", [⟨(7 : Nat), 2⟩]), ("g", [⟨5, 1⟩])] "g").snd "f" =
      leaf_fifo1 [("f", [⟨(7 : Nat), 2⟩]), ("g", [⟨5, 1⟩])] "f" ∧
    (get_symbol_value2 [("f", [("p", [⟨(3 : Nat), 1⟩])])] "f" "p").fst = some (3, 1) := by
  refine ⟨?_, ?_, ?_, ?_⟩
  · exact (claim_C1_fifo_insertion_order (α := Nat)).1 _ "f" ⟨7, 2⟩ [⟨9, 1⟩] (by decide)
  · rw [(claim_C1_fifo_insertion_order (α := Nat)).2.1 [("f", [⟨7, 2⟩])] "f" 9 1]
    decide
  · exact (claim_C1_fifo_insertion_order (α := Nat)).2.2.2.1 _ "g" "f" (by decide)
  · exact (claim_C1_fifo_insertion_order (α := Nat)).2.2.2.2.1 _ "f" "p" ⟨3, 1⟩ []
      (by decide)

/-- C2: a take on a key chain with a queued entry returns the entry's
remaining-use count at the moment of retrieval; afterwards the entry is
removed when that count was `1`, decremented when it was above `1`, and left
in place when it was `-1` or `-2`, a `-1` (ALWAYS) entry being marked used
(count `-2`) and a `-2` (MAYBE) entry transitioning to `-3` on its first
consumption. -/
theorem claim_C2_take_count_postcondition {α : Type} :
    (∀ (m : Map1 α) (k : String) (e : QueuedValue α) (es : List (QueuedValue α)),
        nodup_keys m → e.refcount ≠ 0 → leaf_fifo1 m k = e :: es →
        (get_symbol_value1 m k).fst = some (e.value, e.refcount) ∧
        leaf_fifo1 (get_symbol_value1 m k).snd k =
          (if e.refcount = 1 then es
           else if 1 < e.refcount then ⟨e.value, e.refcount - 1⟩ :: es
           else if e.refcount = -1 then ⟨e.value, -2⟩ :: es
           else if e.refcount = -2 then ⟨e.value, -3⟩ :: es
           else e :: es)) ∧
    (∀ (m : Map2 α) (k₁ k₂ : String) (e : QueuedValue α) (es : List (QueuedValue α)),
        nodup_keys m → nodup_keys ((lookupFirst m k₁).getD []) → e.refcount ≠ 0 →
        leaf_fifo2 m k₁ k₂ = e :: es →
        (get_symbol_value2 m k₁ k₂).fst = some (e.value, e.refcount) ∧
        leaf_fifo2 (get_symbol_value2 m k₁ k₂).snd k₁ k₂ =
          (if e.refcount = 1 then es
           else if 1 < e.refcount then ⟨e.value, e.refcount - 1⟩ :: es
           else if e.refcount = -1 then ⟨e.value, -2⟩ :: es
           else if e.refcount = -2 then ⟨e.value, -3⟩ :: es
           else e :: es)) := by
  constructor
  · intro m k e es hn hz h
    refine ⟨get1_fst_of_front h, ?_⟩
    rw [get1_leaf_of_front hn h]
    exact take_leaf_result_cases e es hz
  · intro m k₁ k₂ e es hn hni hz h
    refine ⟨get2_fst_of_front h, ?_⟩
    rw [get2_leaf_of_front hn hni h]
    exact take_leaf_result_cases e es hz

theorem claim_C2_take_count_postcondition_witness :
    ((get_symbol_value1 [("f", [⟨(5 : Nat), -2⟩])] "f").fst = some (5, -2) ∧
      leaf_fifo1 (get_symbol_value1 [("f", [⟨(5 : Nat), -2⟩])] "f").snd "f" =
        [⟨5, -3⟩]) ∧
    ((get_symbol_value2 [("f", [("p", [⟨(4 : Nat), -1⟩])])] "f" "p").fst =
        some (4, -1) ∧
      leaf_fifo2 (get_symbol_value2 [("f", [("p", [⟨(4 : Nat), -1⟩])])] "f" "p").snd
        "f" "p" = [⟨4, -2⟩]) := by
  constructor
  · have h := (claim_C2_take_count_postcondition (α := Nat)).1 [("f", [⟨5, -2⟩])] "f"
      ⟨5, -2⟩ [] (by decide) (by decide) (by decide)
    refine ⟨h.1, ?_⟩
    rw [h.2]
    decide
  · have h := (claim_C2_take_count_postcondition (α := Nat)).2
      [("f", [("p", [⟨4, -1⟩])])] "f" "p" ⟨4, -1⟩ [] (by decide) (by decide)
      (by decide) (by decide)
    refine ⟨h.1, ?_⟩
    rw [h.2]
    decide

/-! ## Call-ordering scan lemmas -/

theorem scan_skips {name : String} (sk : List FuncOrderingValue)
    (pre rest : List FuncOrderingValue)
    (h : ∀ p ∈ sk, p.function ≠ name ∧ p.refcount ≤ -2) :
    function_called_scan pre (sk ++ rest) name =
      function_called_scan (pre ++ sk) rest name := by
  induction sk generalizing pre with
  | nil => simp
  | cons e es ih =>
    have he := h e (List.mem_cons_self e es)
    have hrest : ∀ p ∈ es, p.function ≠ name ∧ p.refcount ≤ -2 :=
      fun p hp => h p (List.mem_cons_of_mem e hp)
    rw [List.cons_append]
    show function_called_scan pre (e :: (es ++ rest)) name = _
    rw [show function_called_scan pre (e :: (es ++ rest)) name =
        function_called_scan (pre ++ [e]) (es ++ rest) name by
      simp only [function_called_scan, if_neg he.1, if_neg (by omega : ¬e.refcount > -2)]]
    rw [ih (pre ++ [e]) hrest]
    simp

theorem scan_all_skipped {name : String} {q : List FuncOrderingValue}
    (pre : List FuncOrderingValue)
    (h : ∀ p ∈ q, p.function ≠ name ∧ p.refcount ≤ -2) :
    function_called_scan pre q name = .failNoMatch := by
  have := scan_skips q pre [] h
  rw [List.append_nil] at this
  rw [this]
  rfl

/-- C3 counterexample: with the queue `[a (count EXPECT_ALWAYS), b (count 1)]`
a reported call of `b` does not skip the never-yet-matched sticky ALWAYS
entry `a`; `_function_called` hard-fails with the mismatch diagnostic naming
`a`, whereas the claim's scan rule predicts that `a` is skipped, `b` is
matched and removed at count zero, and the call succeeds. -/
theorem claim_C3_counterexample :
    function_called
        [⟨"a", ⟨some "t.c", 1⟩, EXPECT_ALWAYS⟩, ⟨"b", ⟨some "t.c", 2⟩, 1⟩] "b" =
      .failMismatch "a" ∧
    CalledResult.failMismatch "a" ≠
      CalledResult.ok [⟨"a", ⟨some "t.c", 1⟩, EXPECT_ALWAYS⟩] := by
  constructor
  · rfl
  · decide

/-- C3 (amended): `_function_called` on an empty queue is a hard failure;
scanning from the head, entries are skipped on a name mismatch only while
their count is at most `-2` (a MAYBE, or an ALWAYS already matched at least
once) — a never-matched ALWAYS entry (count `-1`) behaves like a non-sticky
entry, so the first mismatching entry with count above `-2` is a hard
failure; at the first entry that matches or has count above `-2`: a match
with count above `-2` is decremented and removed when it reaches zero, a
match with count at most `-2` is left untouched, and a mismatch fails naming
the expected function; a queue of nothing but sticky mismatches is exhausted
and fails. -/
theorem claim_C3_amended_ordering_match :
    (∀ name : String, function_called [] name = .failEmptyQueue) ∧
    (∀ (name : String) (sk : List FuncOrderingValue) (e : FuncOrderingValue)
        (post : List FuncOrderingValue),
        (∀ p ∈ sk, p.function ≠ name ∧ p.refcount ≤ -2) →
        (e.function = name ∨ -2 < e.refcount) →
        function_called (sk ++ e :: post) name =
          (if e.function = name then
             (if -2 < e.refcount then
                (if e.refcount = 1 then .ok (sk ++ post)
                 else .ok (sk ++ ⟨e.function, e.location, e.refcount - 1⟩ :: post))
              else .ok (sk ++ e :: post))
           else .failMismatch e.function)) ∧
    (∀ (name : String) (q : List FuncOrderingValue), q ≠ [] →
        (∀ p ∈ q, p.function ≠ name ∧ p.refcount ≤ -2) →
        function_called q name = .failNoMatch) := by
  refine ⟨fun _ => rfl, ?_, ?_⟩
  · intro name sk e post hsk he
    have hne : sk ++ e :: post ≠ [] := by simp
    have h0 : function_called (sk ++ e :: post) name =
        function_called_scan [] (sk ++ e :: post) name := by
      cases hq : sk ++ e :: post with
      | nil => exact absurd hq hne
      | cons x xs => rw [← hq]; rw [hq]; rfl
    rw [h0, scan_skips sk [] (e :: post) hsk, List.nil_append]
    by_cases h1 : e.function = name
    · rw [if_pos h1]
      by_cases h2 : -2 < e.refcount
      · rw [if_pos h2]
        by_cases h3 : e.refcount = 1
        · rw [if_pos h3]
          simp only [function_called_scan, if_pos h1, if_pos h2,
            if_pos (by omega : e.refcount - 1 = 0)]
        · rw [if_neg h3]
          simp only [function_called_scan, if_pos h1, if_pos h2,
            if_neg (by omega : ¬e.refcount - 1 = 0)]
      · rw [if_neg h2]
        simp only [function_called_scan, if_pos h1, if_neg h2]
    · rw [if_neg h1]
      have h2 : -2 < e.refcount := by
        rcases he with h | h
        · exact absurd h h1
        · exact h
      simp only [function_called_scan, if_neg h1, if_pos h2]
  · intro name q hq h
    cases q with
    | nil => exact absurd rfl hq
    | cons x xs =>
      show function_called_scan [] (x :: xs) name = .failNoMatch
      exact scan_all_skipped [] h

theorem claim_C3_amended_ordering_match_witness :
    function_called [⟨"a", ⟨some "t.c", 1⟩, -2⟩, ⟨"b", ⟨some "t.c", 2⟩, 1⟩] "b" =
      .ok [⟨"a", ⟨some "t.c", 1⟩, -2⟩] := by
  have h := claim_C3_amended_ordering_match.2.1 "b" [⟨"a", ⟨some "t.c", 1⟩, -2⟩]
    ⟨"b", ⟨some "t.c", 2⟩, 1⟩ [] (by decide) (by decide)
  rw [List.singleton_append] at h
  rw [h]
  decide

/-! ## Sticky-reaping and leftover-audit lemmas -/

theorem reap1_cons_nil {α : Type} (k : String) (ms : Map1 α) :
    remove_always_return_values1 ((k, ([] : List (QueuedValue α))) :: ms) =
      remove_always_return_values1 ms := by
  simp [remove_always_return_values1]

theorem reap1_cons_sticky {α : Type} {e : QueuedValue α} (h : e.refcount < -1)
    (k : String) (es : List (QueuedValue α)) (ms : Map1 α) :
    remove_always_return_values1 ((k, e :: es) :: ms) =
      (if es.isEmpty then remove_always_return_values1 ms
       else (k, es) :: remove_always_return_values1 ms) := by
  have hif : (if e.refcount < -1 then es else e :: es) = es := if_pos h
  simp only [remove_always_return_values1, hif]

theorem reap1_cons_keep {α : Type} {e : QueuedValue α} (h : ¬e.refcount < -1)
    (k : String) (es : List (QueuedValue α)) (ms : Map1 α) :
    remove_always_return_values1 ((k, e :: es) :: ms) =
      (k, e :: es) :: remove_always_return_values1 ms := by
  have hif : (if e.refcount < -1 then es else e :: es) = e :: es := if_neg h
  simp only [remove_always_return_values1, hif, List.isEmpty_cons]
  rfl

theorem reap1_keys_subset {α : Type} (ms : Map1 α) {k : String}
    (h : k ∈ (remove_always_return_values1 ms).map Prod.fst) :
    k ∈ ms.map Prod.fst := by
  induction ms with
  | nil => exact absurd h (by simp [remove_always_return_values1])
  | cons p rest ih =>
    obtain ⟨k₁, vs⟩ := p
    cases vs with
    | nil =>
      rw [reap1_cons_nil] at h
      exact List.mem_cons_of_mem _ (ih h)
    | cons b bs =>
      by_cases hb : b.refcount < -1
      · rw [reap1_cons_sticky hb] at h
        by_cases hbs : bs.isEmpty
        · rw [if_pos hbs] at h
          exact List.mem_cons_of_mem _ (ih h)
        · rw [if_neg hbs] at h
          simp only [List.map_cons, List.mem_cons] at h ⊢
          rcases h with h | h
          · exact Or.inl h
          · exact Or.inr (ih h)
      · rw [reap1_cons_keep hb] at h
        simp only [List.map_cons, List.mem_cons] at h ⊢
        rcases h with h | h
        · exact Or.inl h
        · exact Or.inr (ih h)

theorem reap1_front_sticky {α : Type} {m : Map1 α} {k : String}
    {e : QueuedValue α} {es : List (QueuedValue α)}
    (hn : nodup_keys m) (h : leaf_fifo1 m k = e :: es) (hrc : e.refcount < -1) :
    leaf_fifo1 (remove_always_return_values1 m) k = es := by
  induction m with
  | nil => simp [leaf_fifo1, lookupFirst] at h
  | cons p ms ih =>
    obtain ⟨k₁, vs⟩ := p
    unfold nodup_keys at hn
    simp only [List.map_cons, List.nodup_cons] at hn
    by_cases hk : k₁ = k
    · subst hk
      rw [leaf_fifo1_eq_getD, lookupFirst_cons_hit, Option.getD_some] at h
      subst h
      rw [reap1_cons_sticky hrc]
      by_cases he : es.isEmpty
      · rw [if_pos he, List.isEmpty_iff.mp he]
        rw [leaf_fifo1_eq_getD, lookupFirst_eq_none]
        · rfl
        · intro hmem
          exact hn.1 (reap1_keys_subset ms hmem)
      · rw [if_neg he, leaf_fifo1_eq_getD, lookupFirst_cons_hit, Option.getD_some]
    · rw [leaf_fifo1_eq_getD, lookupFirst_cons_miss hk, ← leaf_fifo1_eq_getD] at h
      cases vs with
      | nil =>
        rw [reap1_cons_nil]
        exact ih hn.2 h
      | cons b bs =>
        by_cases hb : b.refcount < -1
        · rw [reap1_cons_sticky hb]
          by_cases hbs : bs.isEmpty
          · rw [if_pos hbs]
            exact ih hn.2 h
          · rw [if_neg hbs, leaf_fifo1_eq_getD, lookupFirst_cons_miss hk,
              ← leaf_fifo1_eq_getD]
            exact ih hn.2 h
        · rw [reap1_cons_keep hb, leaf_fifo1_eq_getD, lookupFirst_cons_miss hk,
            ← leaf_fifo1_eq_getD]
          exact ih hn.2 h

theorem reap1_front_keep {α : Type} {m : Map1 α} {k : String}
    {e : QueuedValue α} {es : List (QueuedValue α)}
    (h : leaf_fifo1 m k = e :: es) (hrc : ¬e.refcount < -1) :
    leaf_fifo1 (remove_always_return_values1 m) k = e :: es := by
  induction m with
  | nil => simp [leaf_fifo1, lookupFirst] at h
  | cons p ms ih =>
    obtain ⟨k₁, vs⟩ := p
    by_cases hk : k₁ = k
    · subst hk
      rw [leaf_fifo1_eq_getD, lookupFirst_cons_hit, Option.getD_some] at h
      subst h
      rw [reap1_cons_keep hrc, leaf_fifo1_eq_getD, lookupFirst_cons_hit,
        Option.getD_some]
    · rw [leaf_fifo1_eq_getD, lookupFirst_cons_miss hk, ← leaf_fifo1_eq_getD] at h
      cases vs with
      | nil =>
        rw [reap1_cons_nil]
        exact ih h
      | cons b bs =>
        by_cases hb : b.refcount < -1
        · rw [reap1_cons_sticky hb]
          by_cases hbs : bs.isEmpty
          · rw [if_pos hbs]
            exact ih h
          · rw [if_neg hbs, leaf_fifo1_eq_getD, lookupFirst_cons_miss hk,
              ← leaf_fifo1_eq_getD]
            exact ih h
        · rw [reap1_cons_keep hb, leaf_fifo1_eq_getD, lookupFirst_cons_miss hk,
            ← leaf_fifo1_eq_getD]
          exact ih h

theorem reap2_cons_eq {α : Type} (k : String) (m1 : Map1 α) (ms : Map2 α) :
    remove_always_return_values2 ((k, m1) :: ms) =
      (if (remove_always_return_values1 m1).isEmpty
       then remove_always_return_values2 ms
       else (k, remove_always_return_values1 m1) :: remove_always_return_values2 ms) := by
  cases m1 with
  | nil => simp [remove_always_return_values2, remove_always_return_values1]
  | cons b bs => simp [remove_always_return_values2]

theorem reap2_keys_subset {α : Type} (ms : Map2 α) {k : String}
    (h : k ∈ (remove_always_return_values2 ms).map Prod.fst) :
    k ∈ ms.map Prod.fst := by
  induction ms with
  | nil => exact absurd h (by simp [remove_always_return_values2])
  | cons p rest ih =>
    obtain ⟨k₁, m1⟩ := p
    rw [reap2_cons_eq] at h
    by_cases he : (remove_always_return_values1 m1).isEmpty
    · rw [if_pos he] at h
      exact List.mem_cons_of_mem _ (ih h)
    · rw [if_neg he] at h
      simp only [List.map_cons, List.mem_cons] at h ⊢
      rcases h with h | h
      · exact Or.inl h
      · exact Or.inr (ih h)

theorem reap2_front_sticky {α : Type} {m : Map2 α} {k₁ k₂ : String}
    {e : QueuedValue α} {es : List (QueuedValue α)}
    (hn : nodup_keys m) (hni : nodup_keys ((lookupFirst m k₁).getD []))
    (h : leaf_fifo2 m k₁ k₂ = e :: es) (hrc : e.refcount < -1) :
    leaf_fifo2 (remove_always_return_values2 m) k₁ k₂ = es := by
  induction m with
  | nil => simp [leaf_fifo2, lookupFirst] at h
  | cons p ms ih =>
    obtain ⟨j, m1⟩ := p
    unfold nodup_keys at hn
    simp only [List.map_cons, List.nodup_cons] at hn
    by_cases hk : j = k₁
    · subst hk
      rw [lookupFirst_cons_hit, Option.getD_some] at hni
      rw [leaf_fifo2_cons_hit] at h
      have hl := reap1_front_sticky hni h hrc
      rw [reap2_cons_eq]
      by_cases hre : (remove_always_return_values1 m1).isEmpty
      · rw [if_pos hre]
        rw [List.isEmpty_iff.mp hre] at hl
        rw [leaf_fifo2_not_mem k₂ (fun hmem => hn.1 (reap2_keys_subset ms hmem))]
        exact hl
      · rw [if_neg hre, leaf_fifo2_cons_hit]
        exact hl
    · rw [leaf_fifo2_cons_miss hk] at h
      rw [lookupFirst_cons_miss hk] at hni
      rw [reap2_cons_eq]
      by_cases hre : (remove_always_return_values1 m1).isEmpty
      · rw [if_pos hre]
        exact ih hn.2 hni h
      · rw [if_neg hre, leaf_fifo2_cons_miss hk]
        exact ih hn.2 hni h

theorem check1_cons {α : Type} (k : String) (vs : List (QueuedValue α)) (ms : Map1 α) :
    check_for_leftover_values1 ((k, vs) :: ms) =
      (if vs.isEmpty then 0 else 1) + check_for_leftover_values1 ms := by
  simp [check_for_leftover_values1]

theorem check2_cons {α : Type} (k : String) (m1 : Map1 α) (ms : Map2 α) :
    check_for_leftover_values2 ((k, m1) :: ms) =
      (if m1.isEmpty then 0 else 1) + check_for_leftover_values2 ms := by
  simp [check_for_leftover_values2]

theorem check1_reap1 {α : Type} (m : Map1 α) :
    check_for_leftover_values1 (remove_always_return_values1 m) =
      (remove_always_return_values1 m).length := by
  induction m with
  | nil => rfl
  | cons p ms ih =>
    obtain ⟨k, vs⟩ := p
    cases vs with
    | nil =>
      rw [reap1_cons_nil]
      exact ih
    | cons b bs =>
      by_cases hb : b.refcount < -1
      · rw [reap1_cons_sticky hb]
        by_cases hbs : bs.isEmpty
        · rw [if_pos hbs]
          exact ih
        · rw [if_neg hbs, check1_cons, if_neg hbs, ih, List.length_cons]
          omega
      · rw [reap1_cons_keep hb, check1_cons, ih, List.length_cons]
        simp only [List.isEmpty_cons, Bool.false_eq_true, if_false]
        omega

theorem check2_reap2 {α : Type} (m : Map2 α) :
    check_for_leftover_values2 (remove_always_return_values2 m) =
      (remove_always_return_values2 m).length := by
  induction m with
  | nil => rfl
  | cons p ms ih =>
    obtain ⟨k, m1⟩ := p
    rw [reap2_cons_eq]
    by_cases he : (remove_always_return_values1 m1).isEmpty
    · rw [if_pos he]
      exact ih
    · rw [if_neg he, check2_cons, if_neg he, ih, List.length_cons]
      omega

theorem reapList_cons_sticky {e : FuncOrderingValue} (h : e.refcount < -1)
    (es : List FuncOrderingValue) :
    remove_always_return_values_from_list (e :: es) =
      remove_always_return_values_from_list es := by
  simp [remove_always_return_values_from_list, h]

theorem reapList_cons_keep {e : FuncOrderingValue} (h : ¬e.refcount < -1)
    (es : List FuncOrderingValue) :
    remove_always_return_values_from_list (e :: es) =
      e :: remove_always_return_values_from_list es := by
  simp [remove_always_return_values_from_list, h]

theorem reapList_idem (q : List FuncOrderingValue) :
    remove_always_return_values_from_list (remove_always_return_values_from_list q) =
      remove_always_return_values_from_list q := by
  induction q with
  | nil => rfl
  | cons e es ih =>
    by_cases h : e.refcount < -1
    · rw [reapList_cons_sticky h]
      exact ih
    · rw [reapList_cons_keep h, reapList_cons_keep h, ih]

theorem audit_clean_components {st : TestingState}
    (h : (has_leftover_values st).fst = false) :
    remove_always_return_values1 st.resultMap = [] ∧
    remove_always_return_values2 st.parameterMap = [] ∧
    remove_always_return_values_from_list st.callOrdering = [] := by
  have h' : (decide (check_for_leftover_values1
        (remove_always_return_values1 st.resultMap) ≠ 0) ||
      decide (check_for_leftover_values2
        (remove_always_return_values2 st.parameterMap) ≠ 0) ||
      decide (check_for_leftover_values_list
        (remove_always_return_values_from_list st.callOrdering) ≠ 0)) = false := h
  simp only [Bool.or_eq_false_iff, decide_eq_false_iff_not, ne_eq, not_not] at h'
  obtain ⟨⟨h1, h2⟩, h3⟩ := h'
  rw [check1_reap1] at h1
  rw [check2_reap2] at h2
  refine ⟨List.eq_nil_of_length_eq_zero h1, List.eq_nil_of_length_eq_zero h2,
    List.eq_nil_of_length_eq_zero h3⟩

theorem audit_snd_eq {st : TestingState} :
    (has_leftover_values st).snd =
      ⟨remove_always_return_values1 st.resultMap,
       remove_always_return_values2 st.parameterMap,
       remove_always_return_values_from_list st.callOrdering⟩ := rfl

/-- C4 counterexample: two MAYBE (count `-2`) values are queued for `f` and
taken zero times.  The audit's reaping pass removes only the first of them;
the second zero-take MAYBE entry is still reported as a leftover (it remains
in the audited registry) and the leftover verdict is failure — so a test
holding exactly this state fails because of a zero-take MAYBE entry,
contradicting the claim. -/
theorem claim_C4_counterexample :
    (has_leftover_values
        ⟨will_return (will_return [] "f" "t.c" 1 10 EXPECT_MAYBE) "f" "t.c" 2 20
            EXPECT_MAYBE, [], []⟩).fst = true ∧
    (has_leftover_values
        ⟨will_return (will_return [] "f" "t.c" 1 10 EXPECT_MAYBE) "f" "t.c" 2 20
            EXPECT_MAYBE, [], []⟩).snd.resultMap =
      [("f", [⟨⟨⟨some "t.c", 2⟩, 20⟩, -2⟩])] := by
  constructor
  · rfl
  · rfl

/-- C4 (amended): the reaping pass removes, per leaf FIFO, only the front
entry and only when its count is below `-1`.  Hence a MAYBE entry taken zero
times is reaped — and not reported as a leftover — exactly when it stands at
the front of its FIFO (in particular when it is the only entry under its key
chain); a zero-take MAYBE entry queued behind another remaining entry is
still reported.  A MAYBE entry taken at least once carries count `-3` at the
front of its FIFO, which the reaping pass removes before the leftover
check. -/
theorem claim_C4_amended_maybe_reaping {α : Type} :
    (∀ (m : Map1 α) (k : String) (e : QueuedValue α) (es : List (QueuedValue α)),
        nodup_keys m → leaf_fifo1 m k = e :: es → e.refcount < -1 →
        leaf_fifo1 (remove_always_return_values1 m) k = es) ∧
    (∀ (m : Map2 α) (k₁ k₂ : String) (e : QueuedValue α) (es : List (QueuedValue α)),
        nodup_keys m → nodup_keys ((lookupFirst m k₁).getD []) →
        leaf_fifo2 m k₁ k₂ = e :: es → e.refcount < -1 →
        leaf_fifo2 (remove_always_return_values2 m) k₁ k₂ = es) ∧
    (∀ (m : Map1 α) (k : String) (v : α) (es : List (QueuedValue α)),
        nodup_keys m → leaf_fifo1 m k = ⟨v, -2⟩ :: es →
        leaf_fifo1 (get_symbol_value1 m k).snd k = ⟨v, -3⟩ :: es) := by
  refine ⟨?_, ?_, ?_⟩
  · intro m k e es hn h hrc
    exact reap1_front_sticky hn h hrc
  · intro m k₁ k₂ e es hn hni h hrc
    exact reap2_front_sticky hn hni h hrc
  · intro m k v es hn h
    rw [get1_leaf_of_front hn h]
    unfold take_leaf_result
    norm_num
    rw [show WILL_RETURN_ONCE = -3 from rfl]
    norm_num

theorem claim_C4_amended_maybe_reaping_witness :
    leaf_fifo1 (remove_always_return_values1 [("f", [⟨(9 : Nat), -2⟩])]) "f" = [] ∧
    leaf_fifo1 (get_symbol_value1 [("g", [⟨(9 : Nat), -2⟩])] "g").snd "g" =
      [⟨9, -3⟩] := by
  constructor
  · exact (claim_C4_amended_maybe_reaping (α := Nat)).1 _ "f" ⟨9, -2⟩ []
      (by decide) (by decide) (by decide)
  · exact (claim_C4_amended_maybe_reaping (α := Nat)).2.2 _ "g" 9 []
      (by decide) (by decide)

/-- C5 counterexample: a return-value registry holding two MAYBE entries under
one symbol.  The first audit reaps one of them, still reports a leftover
(verdict true); the second audit, with no operations in between, reaps the
other and reports a clean state (verdict false) — the two runs do not produce
identical results. -/
theorem claim_C5_counterexample :
    (has_leftover_values
        ⟨[("h", [⟨⟨⟨some "x.c", 3⟩, 1⟩, -2⟩, ⟨⟨⟨some "x.c", 4⟩, 2⟩, -2⟩])],
          [], []⟩).fst = true ∧
    (has_leftover_values
        (has_leftover_values
          ⟨[("h", [⟨⟨⟨some "x.c", 3⟩, 1⟩, -2⟩, ⟨⟨⟨some "x.c", 4⟩, 2⟩, -2⟩])],
            [], []⟩).snd).fst = false := by
  constructor
  · rfl
  · rfl

/-- C5 (amended): the audit is not idempotent in general, because the
registry reap removes only the first sticky entry of each leaf FIFO per run.
It is idempotent whenever the first run reports no leftovers: the state it
leaves is then empty and a second run returns the identical clean result and
the identical state.  The ordering-queue part of the reap is idempotent
unconditionally. -/
theorem claim_C5_amended_audit_idempotence :
    (∀ st : TestingState, (has_leftover_values st).fst = false →
        has_leftover_values (has_leftover_values st).snd =
          (false, (has_leftover_values st).snd)) ∧
    (∀ q : List FuncOrderingValue,
        remove_always_return_values_from_list
            (remove_always_return_values_from_list q) =
          remove_always_return_values_from_list q) := by
  constructor
  · intro st h
    obtain ⟨h1, h2, h3⟩ := audit_clean_components h
    have hsnd : (has_leftover_values st).snd = ⟨[], [], []⟩ := by
      rw [audit_snd_eq, h1, h2, h3]
    rw [hsnd]
    rfl
  · exact reapList_idem

theorem claim_C5_amended_audit_idempotence_witness :
    has_leftover_values
        (has_leftover_values
          ⟨[("f", [⟨⟨⟨some "t.c", 1⟩, 5⟩, -2⟩])], [],
            [⟨"g", ⟨some "t.c", 2⟩, -3⟩]⟩).snd =
      (false,
       (has_leftover_values
          ⟨[("f", [⟨⟨⟨some "t.c", 1⟩, 5⟩, -2⟩])], [],
            [⟨"g", ⟨some "t.c", 2⟩, -3⟩]⟩).snd) :=
  claim_C5_amended_audit_idempotence.1
    ⟨[("f", [⟨⟨⟨some "t.c", 1⟩, 5⟩, -2⟩])], [], [⟨"g", ⟨some "t.c", 2⟩, -3⟩]⟩
    (by decide)

/-- C9: when a test body fires the barrier through `stop()` (stop flag set,
skip flag clear), the runner still performs the leftover audit: the final
status is PASSED exactly when nothing remains in either registry or in the
ordering queue after sticky reaping, FAILED otherwise, and the state the
runner leaves is the audited one. -/
theorem claim_C9_stop_still_audits (st : TestingState) :
    (test_status_after_barrier true false st).fst =
      (if remove_always_return_values1 st.resultMap = [] ∧
          remove_always_return_values2 st.parameterMap = [] ∧
          remove_always_return_values_from_list st.callOrdering = []
       then CMStatus.passed else CMStatus.failed) ∧
    (test_status_after_barrier true false st).snd = (has_leftover_values st).snd := by
  constructor
  · by_cases hP : remove_always_return_values1 st.resultMap = [] ∧
        remove_always_return_values2 st.parameterMap = [] ∧
        remove_always_return_values_from_list st.callOrdering = []
    · have hfst : (has_leftover_values st).fst = false := by
        show (decide (check_for_leftover_values1
              (remove_always_return_values1 st.resultMap) ≠ 0) ||
            decide (check_for_leftover_values2
              (remove_always_return_values2 st.parameterMap) ≠ 0) ||
            decide (check_for_leftover_values_list
              (remove_always_return_values_from_list st.callOrdering) ≠ 0)) = false
        rw [hP.1, hP.2.1, hP.2.2]
        rfl
      show (if (if (has_leftover_values st).fst then (-1 : Int) else 0) = 0
          then CMStatus.passed else if false then CMStatus.skipped else CMStatus.failed) = _
      rw [hfst, if_pos hP]
      norm_num
    · have hfst : (has_leftover_values st).fst = true := by
        cases hb : (has_leftover_values st).fst with
        | false => exact absurd (audit_clean_components hb) hP
        | true => rfl
      show (if (if (has_leftover_values st).fst then (-1 : Int) else 0) = 0
          then CMStatus.passed else if false then CMStatus.skipped else CMStatus.failed) = _
      rw [hfst, if_neg hP]
      norm_num
  · rfl

/-- C6: `mock(f)` with no queued value for `f` fails through the barrier with
a diagnostic naming `f` and the call site; when at least one mock value was
dequeued earlier in the test (the last-dequeued location tracker is set) the
diagnostic also carries that declaration site, otherwise it reports that no
value was previously returned; the registry and the tracker are left
unchanged.  A successful `mock` returns the dequeued payload and records the
dequeued value's declaration site as the most recent one. -/
theorem claim_C6_mock_underflow_diagnostic (st : MockState) (f file : String)
    (line : Nat) :
    ((get_symbol_value1 st.resultMap f).fst = none →
      cm_mock st f file line =
        (.fail f ⟨some file, line⟩
          (if source_location_is_set st.lastMockLoc then some st.lastMockLoc else none),
         st)) ∧
    (∀ (sym : SymbolValue) (rc : Int),
      (get_symbol_value1 st.resultMap f).fst = some (sym, rc) →
      cm_mock st f file line =
        (.ok sym.value, ⟨(get_symbol_value1 st.resultMap f).snd, sym.location⟩)) := by
  constructor
  · intro h
    have hsnd := get1_none_snd h
    have hg : get_symbol_value1 st.resultMap f = (none, st.resultMap) :=
      Prod.ext h hsnd
    unfold cm_mock
    rw [hg]
  · intro sym rc h
    have hg : get_symbol_value1 st.resultMap f =
        (some (sym, rc), (get_symbol_value1 st.resultMap f).snd) :=
      Prod.ext h rfl
    unfold cm_mock
    rw [hg]

theorem claim_C6_mock_underflow_diagnostic_witness :
    cm_mock ⟨[], ⟨none, 0⟩⟩ "f" "m.c" 7 =
      (.fail "f" ⟨some "m.c", 7⟩ none, ⟨[], ⟨none, 0⟩⟩) ∧
    cm_mock ⟨[], ⟨some "t.c", 4⟩⟩ "f" "m.c" 7 =
      (.fail "f" ⟨some "m.c", 7⟩ (some ⟨some "t.c", 4⟩), ⟨[], ⟨some "t.c", 4⟩⟩) ∧
    cm_mock ⟨[("f", [⟨⟨⟨some "t.c", 1⟩, 42⟩, 1⟩])], ⟨none, 0⟩⟩ "f" "m.c" 8 =
      (.ok 42, ⟨[], ⟨some "t.c", 1⟩⟩) := by
  refine ⟨?_, ?_, ?_⟩
  · have h := (claim_C6_mock_underflow_diagnostic ⟨[], ⟨none, 0⟩⟩ "f" "m.c" 7).1 rfl
    rw [h]
    decide
  · have h := (claim_C6_mock_underflow_diagnostic ⟨[], ⟨some "t.c", 4⟩⟩ "f" "m.c" 7).1 rfl
    rw [h]
    decide
  · have h := (claim_C6_mock_underflow_diagnostic
      ⟨[("f", [⟨⟨⟨some "t.c", 1⟩, 42⟩, 1⟩])], ⟨none, 0⟩⟩ "f" "m.c" 8).2
      ⟨⟨some "t.c", 1⟩, 42⟩ 1 rfl
    rw [h]
    decide

/-! ## Association-list lemmas for the tracking allocator -/

theorem lookupFirst_append_left {κ β : Type} [DecidableEq κ] {xs : List (κ × β)}
    {k : κ} {b : β} (ys : List (κ × β)) (h : lookupFirst xs k = some b) :
    lookupFirst (xs ++ ys) k = some b := by
  induction xs with
  | nil => exact absurd h (by simp [lookupFirst])
  | cons p ms ih =>
    obtain ⟨k₁, b₁⟩ := p
    by_cases hk : k₁ = k
    · subst hk
      rw [lookupFirst_cons_hit] at h
      rw [List.cons_append, lookupFirst_cons_hit]
      exact h
    · rw [lookupFirst_cons_miss hk] at h
      rw [List.cons_append, lookupFirst_cons_miss hk]
      exact ih h

theorem lookupFirst_append_right {κ β : Type} [DecidableEq κ] {xs : List (κ × β)}
    {k : κ} (ys : List (κ × β)) (h : lookupFirst xs k = none) :
    lookupFirst (xs ++ ys) k = lookupFirst ys k := by
  induction xs with
  | nil => rfl
  | cons p ms ih =>
    obtain ⟨k₁, b₁⟩ := p
    by_cases hk : k₁ = k
    · subst hk
      rw [lookupFirst_cons_hit] at h
      exact absurd h (by simp)
    · rw [lookupFirst_cons_miss hk] at h
      rw [List.cons_append, lookupFirst_cons_miss hk]
      exact ih h

theorem mem_keys_of_lookupFirst {κ β : Type} [DecidableEq κ] {m : List (κ × β)}
    {k : κ} {b : β} (h : lookupFirst m k = some b) : k ∈ m.map Prod.fst := by
  by_contra hc
  rw [lookupFirst_eq_none hc] at h
  exact Option.noConfusion h

theorem updateFirst_append_singleton {κ β : Type} [DecidableEq κ]
    {xs : List (κ × β)} {n : κ} (b : β) (f : β → β)
    (h : lookupFirst xs n = none) :
    updateFirst (xs ++ [(n, b)]) n f = xs ++ [(n, f b)] := by
  induction xs with
  | nil => simp [updateFirst]
  | cons p ms ih =>
    obtain ⟨k₁, b₁⟩ := p
    by_cases hk : k₁ = n
    · subst hk
      rw [lookupFirst_cons_hit] at h
      exact absurd h (by simp)
    · rw [lookupFirst_cons_miss hk] at h
      rw [List.cons_append, List.cons_append]
      show updateFirst ((k₁, b₁) :: (ms ++ [(n, b)])) n f = _
      simp only [updateFirst, if_neg hk]
      rw [ih h]

theorem removeFirst_append_singleton {κ β : Type} [DecidableEq κ]
    {p n : κ} (hne : p ≠ n) (xs : List (κ × β)) (b : β) :
    removeFirst (xs ++ [(n, b)]) p = removeFirst xs p ++ [(n, b)] := by
  induction xs with
  | nil => simp [removeFirst, Ne.symm hne]
  | cons q ms ih =>
    obtain ⟨k₁, b₁⟩ := q
    by_cases hk : k₁ = p
    · subst hk
      simp [removeFirst]
    · rw [List.cons_append]
      show removeFirst ((k₁, b₁) :: (ms ++ [(n, b)])) p = _
      simp only [removeFirst, if_neg hk]
      rw [ih]
      rfl

theorem removeFirst_keys_subset {κ β : Type} [DecidableEq κ] {m : List (κ × β)}
    {j k : κ} (h : k ∈ (removeFirst m j).map Prod.fst) : k ∈ m.map Prod.fst := by
  induction m with
  | nil => exact absurd h (by simp [removeFirst])
  | cons p ms ih =>
    obtain ⟨k₁, b₁⟩ := p
    by_cases hk : k₁ = j
    · subst hk
      simp only [removeFirst, if_pos rfl] at h
      exact List.mem_cons_of_mem _ h
    · simp only [removeFirst, if_neg hk, List.map_cons, List.mem_cons] at h ⊢
      rcases h with h | h
      · exact Or.inl h
      · exact Or.inr (ih h)

theorem lookupFirst_removeFirst_self {κ β : Type} [DecidableEq κ]
    {m : List (κ × β)} {k : κ} (hn : nodup_keys m) :
    lookupFirst (removeFirst m k) k = none := by
  induction m with
  | nil => rfl
  | cons p ms ih =>
    obtain ⟨k₁, b₁⟩ := p
    unfold nodup_keys at hn
    simp only [List.map_cons, List.nodup_cons] at hn
    by_cases hk : k₁ = k
    · subst hk
      simp only [removeFirst, if_pos rfl]
      exact lookupFirst_eq_none hn.1
    · simp only [removeFirst, if_neg hk]
      rw [lookupFirst_cons_miss hk]
      exact ih hn.2

theorem lookupFirst_updateFirst_self {κ β : Type} [DecidableEq κ]
    {m : List (κ × β)} {k : κ} {b : β} (f : β → β)
    (h : lookupFirst m k = some b) :
    lookupFirst (updateFirst m k f) k = some (f b) := by
  induction m with
  | nil => exact absurd h (by simp [lookupFirst])
  | cons p ms ih =>
    obtain ⟨k₁, b₁⟩ := p
    by_cases hk : k₁ = k
    · subst hk
      rw [lookupFirst_cons_hit] at h
      have hu : updateFirst ((k₁, b₁) :: ms) k₁ f = (k₁, f b₁) :: ms := by
        simp [updateFirst]
      rw [hu, lookupFirst_cons_hit]
      rw [Option.some_inj] at h
      rw [h]
    · rw [lookupFirst_cons_miss hk] at h
      simp only [updateFirst, if_neg hk]
      rw [lookupFirst_cons_miss hk]
      exact ih h

theorem test_realloc_some_eq {st : AllocState} {p : Nat} {b : MallocBlockInfo}
    {size : Nat} (file : String) (line : Nat)
    (hsize : size ≠ 0) (hlook : lookupFirst st.blocks p = some b)
    (hguard : guard_blocks_ok b = true) (hids : ids_below st) :
    test_realloc st (some p) size file line =
      .ok (some st.nextId)
        ⟨removeFirst st.blocks p ++ [(st.nextId, reallocBlock b size file line)],
         st.nextId + 1⟩ := by
  have hnot : st.nextId ∉ st.blocks.map Prod.fst :=
    fun hmem => absurd (hids _ hmem) (lt_irrefl _)
  have hpmem : p ∈ st.blocks.map Prod.fst := mem_keys_of_lookupFirst hlook
  have hpne : p ≠ st.nextId := Nat.ne_of_lt (hids _ hpmem)
  simp only [test_realloc, hlook]
  rw [if_neg hsize]
  have hfresh : (test_malloc st size file line).2 =
      ⟨st.blocks ++ [(st.nextId,
        ⟨List.replicate 16 0xEF, List.replicate size 0xBA, List.replicate 16 0xEF,
         ⟨some file, line⟩⟩)], st.nextId + 1⟩ := rfl
  have hfst : (test_malloc st size file line).1 = st.nextId := rfl
  have hset : set_user_bytes (test_malloc st size file line).2
      (test_malloc st size file line).1
      (List.take (if b.userBytes.length < size then b.userBytes.length else size)
          b.userBytes ++
        List.replicate
          (size - if b.userBytes.length < size then b.userBytes.length else size) 186) =
      ⟨st.blocks ++ [(st.nextId, reallocBlock b size file line)], st.nextId + 1⟩ := by
    rw [hfresh, hfst]
    simp only [set_user_bytes]
    rw [updateFirst_append_singleton _ _ (lookupFirst_eq_none hnot)]
    rfl
  have hlook2 : lookupFirst
      (st.blocks ++ [(st.nextId, reallocBlock b size file line)]) p = some b :=
    lookupFirst_append_left _ hlook
  have hfree : test_free
      ⟨st.blocks ++ [(st.nextId, reallocBlock b size file line)], st.nextId + 1⟩
      (some p) file line =
      .ok ⟨removeFirst st.blocks p ++ [(st.nextId, reallocBlock b size file line)],
           st.nextId + 1⟩ := by
    simp only [test_free, hlook2, hguard, if_true]
    rw [removeFirst_append_singleton hpne]
  rw [hset, hfree]
  rfl

theorem reallocBlock_take_eq (b : MallocBlockInfo) (size : Nat) (file : String)
    (line : Nat) :
    (reallocBlock b size file line).userBytes.take (min b.userBytes.length size) =
      b.userBytes.take (min b.userBytes.length size) := by
  have hclen : (if b.userBytes.length < size then b.userBytes.length else size) =
      min b.userBytes.length size := by
    rw [Nat.min_def]
    split_ifs <;> omega
  show (b.userBytes.take
      (if b.userBytes.length < size then b.userBytes.length else size) ++
      List.replicate
        (size - (if b.userBytes.length < size then b.userBytes.length else size))
        0xBA).take (min b.userBytes.length size) = _
  rw [hclen]
  rw [List.take_append_of_le_length]
  · rw [List.take_take]
    rw [Nat.min_self]
  · rw [List.length_take]
    omega

/-- C7: `test_realloc(NULL, n)` behaves as `test_malloc(n)`;
`test_realloc(p, 0)` behaves as `test_free(p)` and returns NULL; otherwise
the result is a freshly allocated block (a new address, recorded in the live
set) whose first `min(old_size, n)` user bytes are bit-exactly the old
block's bytes, and the old block is freed and removed from the live-block
set. -/
theorem claim_C7_realloc_semantics :
    (∀ (st : AllocState) (size : Nat) (file : String) (line : Nat),
        test_realloc st none size file line =
          .ok (some (test_malloc st size file line).fst)
            (test_malloc st size file line).snd) ∧
    (∀ (st : AllocState) (p : Nat) (file : String) (line : Nat),
        test_realloc st (some p) 0 file line =
          free_as_realloc (test_free st (some p) file line)) ∧
    (∀ (st : AllocState) (p : Nat) (b : MallocBlockInfo) (size : Nat)
        (file : String) (line : Nat),
        size ≠ 0 → lookupFirst st.blocks p = some b →
        guard_blocks_ok b = true → ids_below st → nodup_keys st.blocks →
        test_realloc st (some p) size file line =
          .ok (some st.nextId)
            ⟨removeFirst st.blocks p ++ [(st.nextId, reallocBlock b size file line)],
             st.nextId + 1⟩ ∧
        (reallocBlock b size file line).userBytes.take (min b.userBytes.length size) =
          b.userBytes.take (min b.userBytes.length size) ∧
        lookupFirst (removeFirst st.blocks p ++
            [(st.nextId, reallocBlock b size file line)]) p = none ∧
        lookupFirst (removeFirst st.blocks p ++
            [(st.nextId, reallocBlock b size file line)]) st.nextId =
          some (reallocBlock b size file line)) := by
  refine ⟨fun st size file line => rfl, fun st p file line => rfl, ?_⟩
  intro st p b size file line hsize hlook hguard hids hnk
  have hnot : st.nextId ∉ st.blocks.map Prod.fst :=
    fun hmem => absurd (hids _ hmem) (lt_irrefl _)
  have hpmem : p ∈ st.blocks.map Prod.fst := mem_keys_of_lookupFirst hlook
  have hpne : p ≠ st.nextId := Nat.ne_of_lt (hids _ hpmem)
  refine ⟨test_realloc_some_eq file line hsize hlook hguard hids,
    reallocBlock_take_eq b size file line, ?_, ?_⟩
  · rw [lookupFirst_append_right _ (lookupFirst_removeFirst_self hnk)]
    rw [lookupFirst_cons_miss (fun h => hpne h.symm)]
    rfl
  · rw [lookupFirst_append_right _
      (lookupFirst_eq_none (fun hmem => hnot (removeFirst_keys_subset hmem)))]
    rw [lookupFirst_cons_hit]

theorem claim_C7_realloc_semantics_witness :
    test_realloc
        ⟨[(0, ⟨List.replicate 16 0xEF, [0xBA, 0xBA, 0xBA], List.replicate 16 0xEF,
            ⟨some "a.c", 1⟩⟩)], 1⟩ (some 0) 2 "a.c" 9 =
      .ok (some 1)
        ⟨[(1, reallocBlock
            ⟨List.replicate 16 0xEF, [0xBA, 0xBA, 0xBA], List.replicate 16 0xEF,
             ⟨some "a.c", 1⟩⟩ 2 "a.c" 9)], 2⟩ := by
  have h := claim_C7_realloc_semantics.2.2
    ⟨[(0, ⟨List.replicate 16 0xEF, [0xBA, 0xBA, 0xBA], List.replicate 16 0xEF,
        ⟨some "a.c", 1⟩⟩)], 1⟩ 0
    ⟨List.replicate 16 0xEF, [0xBA, 0xBA, 0xBA], List.replicate 16 0xEF,
     ⟨some "a.c", 1⟩⟩ 2 "a.c" 9
    (by decide) (by decide) (by decide) (by decide) (by decide)
  rw [h.1]
  rfl

/-- C8: freeing a tracked block whose two 16-byte guard zones still hold the
`0xEF` pattern succeeds and removes the block from the live set; if any
single byte of either guard zone has been changed from `0xEF`, the free of
that block yields exactly one GUARD_CORRUPTION failure carrying the free
site and the original allocation site. -/
theorem claim_C8_guard_zones :
    (∀ (st : AllocState) (p : Nat) (b : MallocBlockInfo) (file : String) (line : Nat),
        lookupFirst st.blocks p = some b → guard_blocks_ok b = true →
        test_free st (some p) file line = .ok ⟨removeFirst st.blocks p, st.nextId⟩ ∧
        (nodup_keys st.blocks → lookupFirst (removeFirst st.blocks p) p = none)) ∧
    (∀ (st : AllocState) (p : Nat) (b : MallocBlockInfo) (file : String) (line : Nat)
        (g1 g2 : List Nat) (d c : Nat),
        lookupFirst st.blocks p = some b → guard_blocks_ok b = true →
        c % 256 ≠ 0xEF →
        (b.leadGuard = g1 ++ d :: g2 →
          test_free
            ⟨updateFirst st.blocks p
               (fun bb => ⟨g1 ++ c :: g2, bb.userBytes, bb.tailGuard, bb.location⟩),
             st.nextId⟩ (some p) file line =
            .guardFail ⟨some file, line⟩ b.location) ∧
        (b.tailGuard = g1 ++ d :: g2 →
          test_free
            ⟨updateFirst st.blocks p
               (fun bb => ⟨bb.leadGuard, bb.userBytes, g1 ++ c :: g2, bb.location⟩),
             st.nextId⟩ (some p) file line =
            .guardFail ⟨some file, line⟩ b.location)) := by
  constructor
  · intro st p b file line hlook hguard
    constructor
    · simp only [test_free, hlook, hguard, if_true]
    · intro hnk
      exact lookupFirst_removeFirst_self hnk
  · intro st p b file line g1 g2 d c hlook hguard hc
    constructor
    · intro hlead
      have hup : lookupFirst (updateFirst st.blocks p
          (fun bb => ⟨g1 ++ c :: g2, bb.userBytes, bb.tailGuard, bb.location⟩)) p =
          some ⟨g1 ++ c :: g2, b.userBytes, b.tailGuard, b.location⟩ :=
        lookupFirst_updateFirst_self _ hlook
      have hbad : guard_blocks_ok
          ⟨g1 ++ c :: g2, b.userBytes, b.tailGuard, b.location⟩ = false := by
        refine List.all_eq_false.mpr ⟨c, ?_, ?_⟩
        · simp
        · simpa using hc
      simp only [test_free, hup, hbad]
      rfl
    · intro htail
      have hup : lookupFirst (updateFirst st.blocks p
          (fun bb => ⟨bb.leadGuard, bb.userBytes, g1 ++ c :: g2, bb.location⟩)) p =
          some ⟨b.leadGuard, b.userBytes, g1 ++ c :: g2, b.location⟩ :=
        lookupFirst_updateFirst_self _ hlook
      have hbad : guard_blocks_ok
          ⟨b.leadGuard, b.userBytes, g1 ++ c :: g2, b.location⟩ = false := by
        refine List.all_eq_false.mpr ⟨c, ?_, ?_⟩
        · simp
        · simpa using hc
      simp only [test_free, hup, hbad]
      rfl

theorem claim_C8_guard_zones_witness :
    test_free
        ⟨[(0, ⟨List.replicate 16 0xEF, [0xBA, 0xBA], List.replicate 16 0xEF,
            ⟨some "a.c", 1⟩⟩)], 1⟩ (some 0) "a.c" 9 =
      .ok ⟨[], 1⟩ ∧
    test_free
        ⟨updateFirst
           [(0, ⟨List.replicate 16 0xEF, [0xBA, 0xBA], List.replicate 16 0xEF,
              ⟨some "a.c", 1⟩⟩)] 0
           (fun bb =>
             ⟨List.replicate 5 0xEF ++ 0 :: List.replicate 10 0xEF,
              bb.userBytes, bb.tailGuard, bb.location⟩), 1⟩ (some 0) "a.c" 9 =
      .guardFail ⟨some "a.c", 9⟩ ⟨some "a.c", 1⟩ := by
  constructor
  · have h := (claim_C8_guard_zones.1
      ⟨[(0, ⟨List.replicate 16 0xEF, [0xBA, 0xBA], List.replicate 16 0xEF,
          ⟨some "a.c", 1⟩⟩)], 1⟩ 0
      ⟨List.replicate 16 0xEF, [0xBA, 0xBA], List.replicate 16 0xEF,
       ⟨some "a.c", 1⟩⟩ "a.c" 9 (by decide) (by decide)).1
    rw [h]
    rfl
  · have h := ((claim_C8_guard_zones.2
      ⟨[(0, ⟨List.replicate 16 0xEF, [0xBA, 0xBA], List.replicate 16 0xEF,
          ⟨some "a.c", 1⟩⟩)], 1⟩ 0
      ⟨List.replicate 16 0xEF, [0xBA, 0xBA], List.replicate 16 0xEF,
       ⟨some "a.c", 1⟩⟩ "a.c" 9 (List.replicate 5 0xEF) (List.replicate 10 0xEF)
      0xEF 0 (by decide) (by decide) (by decide)).1 (by decide))
    exact h

/-- C10: `test_free` invoked with a NULL pointer returns immediately for any
file and line arguments: no failure is raised, no guard zone is inspected,
and the live-block set is unchanged. -/
theorem claim_C10_free_null_noop (st : AllocState) (file : String) (line : Nat) :
    test_free st none file line = .ok st := rfl
